import Mathlib

/-!
Verification of the vet_agent repository core algorithms:
profile merge (src/agents/extractor.py), inquiry loop termination
(src/agents/inquiry.py), reciprocal rank fusion and hybrid search
(src/rag/impl/retriever.py), cross-query dedup (src/agents/diagnosis_retriever.py)
and the actor/critic review loop (src/agents/diagnosis_actor.py,
src/agents/diagnosis_critic.py).

Python strings are modelled as Lean `String`; `str.strip()` and `str.lower()`
are modelled on the underlying character list (`pyStrip`, `pyLower`).
Python floats are modelled as exact rationals `ℚ`.
-/

namespace VetAgent

/-! ## String primitives: Python `str.strip()` and `str.lower()` -/

/-- Character-list version of stripping whitespace from both ends
(Python `str.strip()`). -/
def stripChars (l : List Char) : List Char :=
  ((l.dropWhile Char.isWhitespace).reverse.dropWhile Char.isWhitespace).reverse

/-- Python `str.strip()`. -/
def pyStrip (s : String) : String := String.mk (stripChars s.data)

/-- Python `str.lower()` (ASCII case folding, which covers every marker string
compared against in the source). -/
def pyLower (s : String) : String := String.mk (s.data.map Char.toLower)

theorem dropWhile_idem (p : Char → Bool) (l : List Char) :
    (l.dropWhile p).dropWhile p = l.dropWhile p := by
  induction l with
  | nil => simp
  | cons x xs ih =>
    by_cases h : p x
    · simp [List.dropWhile_cons, h, ih]
    · simp [List.dropWhile_cons, h]

theorem dropWhile_head_false (p : Char → Bool) :
    ∀ (l : List Char) (a : Char) (t : List Char), l.dropWhile p = a :: t → p a = false := by
  intro l
  induction l with
  | nil => intro a t h; simp at h
  | cons x xs ih =>
    intro a t h
    by_cases hx : p x
    · simp [List.dropWhile_cons, hx] at h
      exact ih a t h
    · simp [List.dropWhile_cons, hx] at h
      simpa [← h.1] using hx

theorem dropWhile_suffix_aux (p : Char → Bool) (l : List Char) :
    l.dropWhile p <:+ l := by
  induction l with
  | nil => simp
  | cons x xs ih =>
    by_cases h : p x
    · simp only [List.dropWhile_cons, h, if_true]
      exact ih.trans (List.suffix_cons x xs)
    · simp [List.dropWhile_cons, h]

theorem prefix_head_eq {l₁ l₂ : List Char} (h : l₁ <+: l₂) (a : Char) (t : List Char)
    (he : l₁ = a :: t) : ∃ t₂, l₂ = a :: t₂ := by
  rcases h with ⟨r, hr⟩
  subst he
  exact ⟨t ++ r, by simp [← hr]⟩

theorem stripChars_idem (l : List Char) : stripChars (stripChars l) = stripChars l := by
  unfold stripChars
  set p := Char.isWhitespace with hp
  set A := l.dropWhile p with hA
  set B := A.reverse.dropWhile p with hB
  -- Step 1: the front of `B.reverse` is already non-whitespace.
  have hBrev : B.reverse.dropWhile p = B.reverse := by
    cases hc : B.reverse with
    | nil => simp [hc]
    | cons a t =>
      -- `B.reverse` is a prefix of `A`, so its head is the head of `A`.
      have hpref : B.reverse <+: A := by
        have hsuf : B <:+ A.reverse := dropWhile_suffix_aux p A.reverse
        have h2 : B.reverse <+: A.reverse.reverse :=
          List.reverse_prefix.mpr hsuf
        simpa using h2
      obtain ⟨t₂, ht₂⟩ := prefix_head_eq hpref a t hc
      have ha : p a = false := dropWhile_head_false p l a t₂ (by rw [← hA, ht₂])
      simp [hc, List.dropWhile_cons, ha]
  rw [hBrev]
  have hBB : B.reverse.reverse.dropWhile p = B := by
    rw [List.reverse_reverse, hB]
    exact dropWhile_idem p A.reverse
  rw [hBB]

theorem pyStrip_idem (s : String) : pyStrip (pyStrip s) = pyStrip s := by
  simp [pyStrip, stripChars_idem]

/-! ## Data model: `SpeciesEnum` (src/common/species_enum.py) and
`PetProfile` (src/state/pet_profile.py) -/

/-- The closed species vocabulary. In Python this is a `str`-valued enum. -/
inductive SpeciesEnum where
  | BIRD | CAT | DOG | FERRET | GUINEA_PIG | HAMSTER | RABBIT | UNKNOWN
deriving DecidableEq, Repr

/-- The string value of each enum member. -/
def SpeciesEnum.value : SpeciesEnum → String
  | .BIRD => "bird"
  | .CAT => "cat"
  | .DOG => "dog"
  | .FERRET => "ferret"
  | .GUINEA_PIG => "guinea_pig"
  | .HAMSTER => "hamster"
  | .RABBIT => "rabbit"
  | .UNKNOWN => "unknown"

/-- The markers the `empty_string_to_none` validator of `PetProfile` maps to
`None` (compared against `v.strip().lower()`). -/
def blankMarkers : List String := ["", "none", "null", "n/a", "unknown", "not provided"]

/-- `PetProfile.empty_string_to_none` field validator: a string whose
stripped, lowered form is a blank marker becomes `None`; everything else is
kept verbatim. -/
def normScalar : Option String → Option String
  | none => none
  | some s => if pyLower (pyStrip s) ∈ blankMarkers then none else some s

/-- The species field validator applied to an already-typed enum member: the
`str`-enum's value is stripped and lowered, so exactly `UNKNOWN` (value
`"unknown"`, a blank marker) is mapped to `None`; all other member values are
kept. -/
def normSpecies : Option SpeciesEnum → Option SpeciesEnum
  | none => none
  | some s => if s = SpeciesEnum.UNKNOWN then none else some s

/-- `PetProfile.sanitize_symptoms` field validator on a list input: each
string item is stripped; it is kept iff the stripped form is non-empty and its
lowered form is not `"none"`/`"n/a"`. -/
def sanitizeSymptoms (l : List String) : List String :=
  l.filterMap (fun item =>
    let s := pyStrip item
    if s ≠ "" ∧ pyLower s ∉ (["none", "n/a"] : List String) then some s else none)

/-- The structured patient profile (src/state/pet_profile.py). Field values
are the already-validated Python values; `none` is Python `None`. -/
structure PetProfile where
  name : Option String := none
  species : Option SpeciesEnum := none
  breed : Option String := none
  symptoms : List String := []
  age : Option String := none
  sex : Option String := none
  weight : Option String := none
  language : Option String := none
deriving DecidableEq, Repr

/-- Pydantic construction `PetProfile(**data)`: runs every field validator. -/
def mkProfile (p : PetProfile) : PetProfile where
  name := normScalar p.name
  species := normSpecies p.species
  breed := normScalar p.breed
  symptoms := sanitizeSymptoms p.symptoms
  age := normScalar p.age
  sex := normScalar p.sex
  weight := normScalar p.weight
  language := normScalar p.language

/-- A profile is validated when running the validators again changes nothing.
Every `PetProfile` value the Python program manipulates has this property,
because pydantic validates at construction. -/
def PetProfile.Validated (p : PetProfile) : Prop := mkProfile p = p

instance (p : PetProfile) : Decidable p.Validated := by
  unfold PetProfile.Validated; infer_instance

/-! ## Profile merge: `merge_profiles` (src/agents/extractor.py lines 13-44) -/

/-- The symptoms branch of `merge_profiles`: fold over the delta items,
strip each, append iff non-empty and not already present (exact match). -/
def mergeSymptoms (current delta : List String) : List String :=
  delta.foldl (fun acc item =>
    let c := pyStrip item
    if c ≠ "" ∧ c ∉ acc then acc ++ [c] else acc) current

/-- The overwrite branch of `merge_profiles`: a field present (non-`None`) in
the delta replaces the current value; an absent field is left untouched
(`model_dump(exclude_none=True)` skips `None` fields). -/
def overwrite (c d : Option String) : Option String :=
  match d with
  | none => c
  | some v => some v

/-- Overwrite for the species field. -/
def overwriteSpecies (c d : Option SpeciesEnum) : Option SpeciesEnum :=
  match d with
  | none => c
  | some v => some v

/-- `merge_profiles(current, new_delta)` (src/agents/extractor.py): dump both
profiles, overwrite scalars, append-merge symptoms, rebuild through the
pydantic constructor (which re-runs the validators). -/
def merge_profiles (current delta : PetProfile) : PetProfile :=
  mkProfile {
    name := overwrite current.name delta.name
    species := overwriteSpecies current.species delta.species
    breed := overwrite current.breed delta.breed
    symptoms := mergeSymptoms current.symptoms delta.symptoms
    age := overwrite current.age delta.age
    sex := overwrite current.sex delta.sex
    weight := overwrite current.weight delta.weight
    language := overwrite current.language delta.language }

/-- Folding a sequence of extraction deltas into a starting profile. -/
def mergeAll (p : PetProfile) (ds : List PetProfile) : PetProfile :=
  ds.foldl merge_profiles p

/-! ## Agent status (src/state/agent_status.py) and messages -/

inductive AgentStatus where
  | INITIALIZED | INQUIRY | DIAGNOSIS | TREATMENT | KNOWLEDGE | END
deriving DecidableEq, Repr

/-- A langchain `AIMessage`: message content plus an optional speaker name. -/
structure AIMessage where
  content : String
  name : Option String := none
deriving DecidableEq, Repr

/-- Python falsiness of an `Optional[str]` field: `None` and `""` are falsy. -/
def pyFalsyStr : Option String → Bool
  | none => true
  | some s => s == ""

/-- Python `x or default` for an `Optional[str]`. -/
def pyOrStr (v : Option String) (dflt : String) : String :=
  match v with
  | none => dflt
  | some s => if s = "" then dflt else s

/-- `PetProfile.summarization` (src/state/pet_profile.py). -/
def summarization (p : PetProfile) : String :=
  let symptoms_str := if p.symptoms.isEmpty then "None reported"
    else String.intercalate ". " p.symptoms
  let species_str := match p.species with | some s => s.value | none => "Unknown"
  "📋 Pet Profile Summary:\n" ++
  "-----------------------\n" ++
  "Name:     " ++ pyOrStr p.name "Unknown" ++ "\n" ++
  "Species:  " ++ species_str ++ "\n" ++
  "Breed:    " ++ pyOrStr p.breed "Unknown" ++ "\n" ++
  "Age:      " ++ pyOrStr p.age "N/A" ++ "\n" ++
  "Sex:      " ++ pyOrStr p.sex "N/A" ++ "\n" ++
  "Weight:   " ++ pyOrStr p.weight "N/A" ++ "\n" ++
  "Symptoms: " ++ symptoms_str ++ "\n" ++
  "Language: " ++ (match p.language with | some s => s | none => "None") ++ "\n"

/-! ## Inquiry controller (src/agents/inquiry.py, `inquiry_node`) -/

/-- The species mandatory-field test: missing when `None` or explicitly
`UNKNOWN` (`if not value or value == SpeciesEnum.UNKNOWN`). -/
def speciesMissing (v : Option SpeciesEnum) : Bool :=
  v.isNone || v == some SpeciesEnum.UNKNOWN

/-- Missing mandatory fields, collected in source order
`["species", "name", "breed", "symptoms"]`. -/
def missingMandatory (p : PetProfile) : List String :=
  (if speciesMissing p.species then ["species"] else []) ++
  (if pyFalsyStr p.name then ["name"] else []) ++
  (if pyFalsyStr p.breed then ["breed"] else []) ++
  (if p.symptoms.isEmpty then ["symptoms"] else [])

/-- Missing optional fields, collected in source order `["age", "sex", "weight"]`. -/
def missingOptional (p : PetProfile) : List String :=
  (if pyFalsyStr p.age then ["age"] else []) ++
  (if pyFalsyStr p.sex then ["sex"] else []) ++
  (if pyFalsyStr p.weight then ["weight"] else [])

/-- The slice of `DiagnosisState` read by `inquiry_node`. -/
structure InquiryState where
  pet_profile : PetProfile
  inquiry_turns : ℕ
  additional_inquiry_turns : ℕ
deriving DecidableEq, Repr

/-- The dict returned by `inquiry_node`. A key absent from the returned dict
is `none` here (langgraph keeps the previous state value for it). -/
structure InquiryResult where
  agent_status : Option AgentStatus
  pet_profile : PetProfile
  inquiry_turns : ℕ
  additional_inquiry_turns : Option ℕ
  messages : List AIMessage
deriving DecidableEq, Repr

/-- `inquiry_node` (src/agents/inquiry.py lines 21-76 and the two question
branches). The clarifying question produced by the LLM is the external input
`question`. -/
def inquiry_node (question : AIMessage) (st : InquiryState) : InquiryResult :=
  let p := st.pet_profile
  let turns := st.inquiry_turns
  let addl := st.additional_inquiry_turns
  if missingMandatory p = [] ∧
      (missingOptional p = [] ∨ addl > 0 ∨ turns ≥ 3) then
    { agent_status := some AgentStatus.DIAGNOSIS, pet_profile := p,
      inquiry_turns := turns + 1, additional_inquiry_turns := none,
      messages := [⟨"Got it. Gathering info complete.\n\n" ++ summarization p ++
        "\nProceeding to diagnosis...", none⟩] }
  else if turns ≥ 3 then
    { agent_status := some AgentStatus.END, pet_profile := p,
      inquiry_turns := turns + 1, additional_inquiry_turns := none, messages := [] }
  else if missingMandatory p ≠ [] then
    { agent_status := none, pet_profile := p, inquiry_turns := turns + 1,
      additional_inquiry_turns := some addl, messages := [question] }
  else
    { agent_status := none, pet_profile := p, inquiry_turns := turns + 1,
      additional_inquiry_turns := some (addl + 1), messages := [question] }

/-- The inquiry turn counter along an adversarial run: between two controller
invocations the extractor may change the profile arbitrarily (`profiles n`),
the stored additional-round counter is adversarial as well (`addls n`), and
each invocation threads its own returned `inquiry_turns` into the next. -/
def inquiryTurnsSeq (profiles : ℕ → PetProfile) (addls : ℕ → ℕ)
    (qs : ℕ → AIMessage) : ℕ → ℕ
  | 0 => 0
  | n + 1 =>
    (inquiry_node (qs n)
      ⟨profiles n, inquiryTurnsSeq profiles addls qs n, addls n⟩).inquiry_turns

/-- The controller output at step `n` of an adversarial run. -/
def inquiryRun (profiles : ℕ → PetProfile) (addls : ℕ → ℕ)
    (qs : ℕ → AIMessage) (n : ℕ) : InquiryResult :=
  inquiry_node (qs n) ⟨profiles n, inquiryTurnsSeq profiles addls qs n, addls n⟩

/-! ## Hybrid retrieval (src/rag/impl/retriever.py) -/

/-- The payload stored with an indexed point (the fields the pipeline reads). -/
structure Payload where
  text : String
  species : Option String := none
  specific_breed : Option String := none
  symptom_keywords : List String := []
  condition : Option String := none
deriving DecidableEq, Repr

/-- A recall hit returned by the vector store for one search path. -/
structure Hit where
  id : Int
  payload : Payload
deriving DecidableEq, Repr

/-- One value of the `fused_scores` dict of `_reciprocal_rank_fusion`. -/
structure FusedItem where
  hit : Hit
  score : ℚ
  sources : List String
deriving DecidableEq, Repr

/-- One iteration of a `_reciprocal_rank_fusion` loop body: upsert the dict
entry for `hit.id`, add `weight / (k + rank + 1)` to its score and append the
source tag. The dict is modelled as an insertion-ordered association list. -/
def rrfUpdate (k : ℕ) (w : ℚ) (src : String) (rank : ℕ) (hit : Hit)
    (acc : List FusedItem) : List FusedItem :=
  if ∃ f ∈ acc, f.hit.id = hit.id then
    acc.map (fun f => if f.hit.id = hit.id then
      { f with score := f.score + w / ((k : ℚ) + rank + 1), sources := f.sources ++ [src] }
    else f)
  else
    acc ++ [{ hit := hit, score := 0 + w / ((k : ℚ) + rank + 1), sources := [src] }]

/-- One full `for rank, hit in enumerate(...)` loop of
`_reciprocal_rank_fusion`, starting at rank `r`. -/
def rrfPass (k : ℕ) (w : ℚ) (src : String) : ℕ → List Hit → List FusedItem → List FusedItem
  | _, [], acc => acc
  | r, h :: t, acc => rrfPass k w src (r + 1) t (rrfUpdate k w src r h acc)

/-- The comparison used for `sorted(..., key=lambda x: x["score"], reverse=True)`;
`mergeSort` with this relation is the stable descending sort Python performs. -/
def fusedLE (a b : FusedItem) : Bool := decide (b.score ≤ a.score)

/-- `Retriever._reciprocal_rank_fusion` (src/rag/impl/retriever.py lines
54-78): one dense pass, one sparse pass (both weight 1.0), then a stable sort
by cumulative score descending. -/
def reciprocal_rank_fusion (dense sparse : List Hit) (k : ℕ := 40) : List FusedItem :=
  (rrfPass k 1 "sparse" 0 sparse (rrfPass k 1 "dense" 0 dense [])).mergeSort fusedLE

/-- First dict entry (if any) whose key is `i`. -/
def entryOf (i : Int) (l : List FusedItem) : Option FusedItem :=
  l.find? (fun f => decide (f.hit.id = i))

/-- Cumulative fused score recorded for id `i` (0 when absent). -/
def scoreOf (i : Int) (l : List FusedItem) : ℚ :=
  (entryOf i l).elim 0 FusedItem.score

/-- Source tags recorded for id `i` ([] when absent). -/
def sourcesOf (i : Int) (l : List FusedItem) : List String :=
  (entryOf i l).elim [] FusedItem.sources

/-- Total RRF contribution of a hit list to id `i` when the enumeration
starts at rank `r` (sums over every occurrence of the id). -/
def contribFrom (k : ℕ) (w : ℚ) (i : Int) : ℕ → List Hit → ℚ
  | _, [] => 0
  | r, h :: t => (if h.id = i then w / ((k : ℚ) + r + 1) else 0) + contribFrom k w i (r + 1) t

/-- Number of occurrences of id `i` in a hit list. -/
def occCount (i : Int) : List Hit → ℕ
  | [] => 0
  | h :: t => (if h.id = i then 1 else 0) + occCount i t

/-- 0-based rank of id `i` in a hit list. -/
def rankOf (i : Int) (hits : List Hit) : Option ℕ :=
  hits.findIdx? (fun h => decide (h.id = i))

/-- The spec formula `weight / (k + r + 1)` at the id's rank, 0 when the id
is absent from the list. -/
def rrfContrib (k : ℕ) (w : ℚ) (i : Int) (hits : List Hit) : ℚ :=
  (rankOf i hits).elim 0 (fun r => w / ((k : ℚ) + r + 1))

/-- Ids of a hit list. -/
def idsOf (hits : List Hit) : List Int := hits.map Hit.id

/-- Keys (hit ids) of the fused association list. -/
def fidsOf (l : List FusedItem) : List Int := l.map (fun f => f.hit.id)

/-- The dict value stored for a hit's id after one `rrfUpdate` touches it:
either the previous entry with the contribution added and the source tag
appended, or a fresh entry. -/
def rrfUpdatedEntry (k : ℕ) (w : ℚ) (src : String) (rank : ℕ) (hit : Hit)
    (prev : Option FusedItem) : FusedItem :=
  match prev with
  | some f => { f with
      score := f.score + w / ((k : ℚ) + rank + 1),
      sources := f.sources ++ [src] }
  | none => { hit := hit, score := 0 + w / ((k : ℚ) + rank + 1), sources := [src] }

/-- `SearchResult` (src/rag/schema/search_result.py). -/
structure SearchResult where
  id : Int
  score : ℚ
  text : String
  metadata : Payload
  source : String := "unknown"
deriving DecidableEq, Repr

/-- A rerank candidate `{"id", "text", "meta"}` built in `Retriever.search`. -/
structure Candidate where
  id : Int
  text : String
  meta : Payload
deriving DecidableEq, Repr

/-- One entry of the reranker's output (id, rerank score, text, meta). -/
structure RerankEntry where
  id : Int
  score : ℚ
  text : String
  meta : Payload
deriving DecidableEq, Repr

/-- `Retriever.search` (src/rag/impl/retriever.py lines 110-191) after the
external calls are abstracted: the two recall lists `dense`/`sparse` stand
for the vector-store responses, and `ranker` for the flashrank reranker. -/
def search (use_reranker : Bool) (ranker : String → List Candidate → List RerankEntry)
    (query : String) (limit : ℕ) (dense sparse : List Hit) : List SearchResult :=
  let fused := reciprocal_rank_fusion dense sparse 40
  let candidates := fused.map (fun item =>
    ({ id := item.hit.id, text := item.hit.payload.text, meta := item.hit.payload } : Candidate))
  if use_reranker = true ∧ candidates ≠ [] then
    ((ranker query candidates).take limit).map (fun r =>
      { id := r.id, score := r.score, text := r.text, metadata := r.meta, source := "reranked" })
  else
    (fused.take limit).map (fun item =>
      { id := item.hit.id, score := item.score, text := item.hit.payload.text,
        metadata := item.hit.payload, source := String.intercalate "+" item.sources })

/-- Modelled from the spec (for claim C9 only): "an item's `provenance`
records every source list it appeared in" — the source lists containing the
id, dense first. The code is compared against this definition. -/
def claimedProvenance (i : Int) (dense sparse : List Hit) : List String :=
  (if ∃ h ∈ dense, h.id = i then ["dense"] else []) ++
  (if ∃ h ∈ sparse, h.id = i then ["sparse"] else [])

/-! ## Cross-query merge (src/agents/diagnosis_retriever.py) -/

/-- The dict comprehension `{res.id: res for res in all_results}` as an
insertion-ordered association list: an existing key keeps its position but
its value is replaced (later occurrence wins); a new key is appended. -/
def dedupAux : List SearchResult → List SearchResult → List SearchResult
  | acc, [] => acc
  | acc, r :: t =>
    dedupAux
      (if ∃ x ∈ acc, x.id = r.id then acc.map (fun x => if x.id = r.id then r else x)
       else acc ++ [r]) t

/-- `unique_docs_map` / `unique_docs` of `diagnosis_retriever_node`. -/
def dedupById (l : List SearchResult) : List SearchResult := dedupAux [] l

/-- Comparison for `unique_docs.sort(key=lambda x: x.score, reverse=True)`. -/
def srLE (a b : SearchResult) : Bool := decide (b.score ≤ a.score)

/-- Lines 77-92 of src/agents/diagnosis_retriever.py: dedup by id (last
occurrence wins), stable sort by score descending, truncate to top-5. -/
def retrieverMerge (all_results : List SearchResult) : List SearchResult :=
  ((dedupById all_results).mergeSort srLE).take 5

/-- Python `meta.get(key, "unknown")`. -/
def pyGet (v : Option String) (dflt : String) : String := v.getD dflt

/-- The per-document string assembled by `diagnosis_retriever_node`. -/
def formatDoc (doc : SearchResult) : String :=
  "Doc ID: " ++ toString doc.id ++ "\n" ++
  "Source: " ++ doc.source ++ "\n" ++
  "Species: " ++ pyGet doc.metadata.species "unknown" ++ "\n" ++
  "Breed: " ++ pyGet doc.metadata.specific_breed "unknown" ++ "\n" ++
  "Symptoms: " ++ doc.text ++ "\n" ++
  "Symptom_keywords: " ++ String.intercalate ", " doc.metadata.symptom_keywords ++ "\n" ++
  "Diagnosis: " ++ pyGet doc.metadata.condition "unknown" ++ "\n"

/-- `diagnosis_retriever_node` (src/agents/diagnosis_retriever.py): guard on
empty queries, per-query search (the retrieval layer is the abstracted
`searchOutcome`; `.error` stands for a raised retrieval exception, caught and
degraded to an empty evidence list), then merge, format. -/
def diagnosis_retriever_node (queries : List String)
    (searchOutcome : Except String (String → List SearchResult)) : List String :=
  match queries with
  | [] => []
  | _ =>
    match searchOutcome with
    | .error _ => []
    | .ok searchFn => (retrieverMerge ((queries.map searchFn).flatten)).map formatDoc

/-! ## Actor / critic review loop (src/agents/diagnosis_actor.py,
src/agents/diagnosis_critic.py) -/

/-- `DiagnosisActorOutput` (src/state/diagnosis.py). -/
structure DiagnosisActorOutput where
  key_symptoms_analysis : String
  matched_doc_ids : List String
  most_likely_condition : String
  reasoning : String
  advice_for_owner : String
deriving DecidableEq, Repr

/-- `DiagnosisCriticOutput` (src/state/diagnosis.py). -/
structure DiagnosisCriticOutput where
  is_approved : Bool
  critique : String
  final_response_to_user : String
deriving DecidableEq, Repr

/-- The hardcoded guard message of `diagnosis_critic_node` for a missing draft. -/
def criticFallbackMsg : String :=
  "I\x27m sorry, I couldn\x27t process the medical records to provide a diagnosis at this time. Please consult a veterinarian."

/-- The hardcoded message of `diagnosis_critic_node`'s exception handler. -/
def criticErrorMsg : String := "System Error during validation. Please consult a vet."

/-- `diagnosis_actor_node` (src/agents/diagnosis_actor.py): with no retrieved
docs the draft is `None` and the model is never invoked (the result does not
depend on `modelCall`); otherwise a model failure also degrades to `None`. -/
def diagnosis_actor_node (retrieved_docs : List String)
    (modelCall : Except String DiagnosisActorOutput) : Option DiagnosisActorOutput :=
  if retrieved_docs.isEmpty then none
  else
    match modelCall with
    | .ok out => some out
    | .error _ => none

/-- `diagnosis_critic_node` (src/agents/diagnosis_critic.py): guard on a
missing draft, otherwise one model call whose failure is caught. Returns the
`messages` list of the returned dict. -/
def diagnosis_critic_node (draft : Option DiagnosisActorOutput)
    (modelCall : Except String DiagnosisCriticOutput) : List AIMessage :=
  match draft with
  | none => [⟨criticFallbackMsg, some "VeterinaryAgent"⟩]
  | some _ =>
    match modelCall with
    | .ok r => [⟨r.final_response_to_user, some "VeterinaryAgent"⟩]
    | .error _ => [⟨criticErrorMsg, some "System"⟩]

/-- Character-list substring search helper. -/
def hasSubAux (needle : List Char) : List Char → Bool
  | [] => needle.isEmpty
  | c :: t => needle.isPrefixOf (c :: t) || hasSubAux needle t

/-- Substring test (used to state that a fallback message recommends
veterinary consultation). -/
def containsText (needle hay : String) : Bool := hasSubAux needle.data hay.data

/-! ## Delta extraction (src/agents/extractor.py, `extractor_node`) -/

/-- `extractor_node`: the structured-output model call may return a delta
(`.ok (some d)`), return `None` (`.ok none`, handled by the explicit guard),
or raise (`.error`, e.g. a transport error). The source has no try/except
around the call, so a raised error propagates out of the node. -/
def extractor_node (current : PetProfile)
    (modelCall : Except String (Option PetProfile)) : Except String PetProfile :=
  match modelCall with
  | .error e => .error e
  | .ok none => .ok current
  | .ok (some delta) => .ok (merge_profiles current delta)

/-! ## Lemmas about the validators -/

/-- An individual symptom string as stored after validation: stripped,
non-empty, and not a `"none"`/`"n/a"` marker. -/
def GoodSym (s : String) : Prop :=
  pyStrip s = s ∧ s ≠ "" ∧ pyLower s ∉ (["none", "n/a"] : List String)

theorem sanitizeSymptoms_good (l : List String) :
    ∀ x ∈ sanitizeSymptoms l, GoodSym x := by
  intro x hx
  simp only [sanitizeSymptoms, List.mem_filterMap] at hx
  obtain ⟨item, _, hcond⟩ := hx
  by_cases hc : pyStrip item ≠ "" ∧ pyLower (pyStrip item) ∉ (["none", "n/a"] : List String)
  · rw [if_pos hc] at hcond
    have hx' : pyStrip item = x := Option.some.inj hcond
    subst hx'
    exact ⟨pyStrip_idem item, hc.1, hc.2⟩
  · rw [if_neg hc] at hcond
    exact absurd hcond (by simp)

theorem sanitizeSymptoms_eq_self (l : List String) (h : ∀ x ∈ l, GoodSym x) :
    sanitizeSymptoms l = l := by
  induction l with
  | nil => rfl
  | cons a t ih =>
    have ha := h a (List.mem_cons_self a t)
    obtain ⟨h1, h2, h3⟩ := ha
    simp only [sanitizeSymptoms, List.filterMap_cons, h1]
    rw [if_pos ⟨h2, h3⟩]
    have := ih (fun x hx => h x (List.mem_cons_of_mem a hx))
    simp only [sanitizeSymptoms] at this
    rw [this]

theorem sanitizeSymptoms_idem (l : List String) :
    sanitizeSymptoms (sanitizeSymptoms l) = sanitizeSymptoms l :=
  sanitizeSymptoms_eq_self _ (sanitizeSymptoms_good l)

theorem sanitizeSymptoms_append (a b : List String) :
    sanitizeSymptoms (a ++ b) = sanitizeSymptoms a ++ sanitizeSymptoms b := by
  simp [sanitizeSymptoms, List.filterMap_append]

theorem sanitizeSymptoms_length_le (l : List String) :
    (sanitizeSymptoms l).length ≤ l.length :=
  List.length_filterMap_le _ _

theorem good_of_sanitize_eq_self (l : List String) (h : sanitizeSymptoms l = l) :
    ∀ x ∈ l, GoodSym x := by
  induction l with
  | nil => intro x hx; simp at hx
  | cons a t ih =>
    by_cases hc : pyStrip a ≠ "" ∧ pyLower (pyStrip a) ∉ (["none", "n/a"] : List String)
    · have hexp : sanitizeSymptoms (a :: t) = pyStrip a :: sanitizeSymptoms t := by
        simp only [sanitizeSymptoms, List.filterMap_cons]
        rw [if_pos hc]
      rw [hexp] at h
      have h1 : pyStrip a = a := (List.cons.injEq _ _ _ _ ▸ h).1
      have h2 : sanitizeSymptoms t = t := (List.cons.injEq _ _ _ _ ▸ h).2
      intro x hx
      rcases List.mem_cons.mp hx with rfl | hxt
      · exact ⟨h1, by rw [← h1]; exact hc.1, by rw [← h1]; exact hc.2⟩
      · exact ih h2 x hxt
    · have hexp : sanitizeSymptoms (a :: t) = sanitizeSymptoms t := by
        simp only [sanitizeSymptoms, List.filterMap_cons]
        rw [if_neg hc]
      rw [hexp] at h
      have := sanitizeSymptoms_length_le t
      rw [h] at this
      simp at this

theorem sanitizeSymptoms_sublist (l : List String) (h : ∀ x ∈ l, pyStrip x = x) :
    (sanitizeSymptoms l).Sublist l := by
  induction l with
  | nil => simp [sanitizeSymptoms]
  | cons a t ih =>
    have ha : pyStrip a = a := h a (List.mem_cons_self a t)
    have iht := ih (fun x hx => h x (List.mem_cons_of_mem a hx))
    by_cases hc : pyStrip a ≠ "" ∧ pyLower (pyStrip a) ∉ (["none", "n/a"] : List String)
    · have hexp : sanitizeSymptoms (a :: t) = pyStrip a :: sanitizeSymptoms t := by
        simp only [sanitizeSymptoms, List.filterMap_cons]
        rw [if_pos hc]
      rw [hexp, ha]
      exact iht.cons₂ a
    · have hexp : sanitizeSymptoms (a :: t) = sanitizeSymptoms t := by
        simp only [sanitizeSymptoms, List.filterMap_cons]
        rw [if_neg hc]
      rw [hexp]
      exact iht.cons a

theorem normScalar_idem (v : Option String) : normScalar (normScalar v) = normScalar v := by
  cases v with
  | none => rfl
  | some s =>
    by_cases h : pyLower (pyStrip s) ∈ blankMarkers
    · simp [normScalar, h]
    · simp [normScalar, h]

theorem normSpecies_idem (v : Option SpeciesEnum) :
    normSpecies (normSpecies v) = normSpecies v := by
  cases v with
  | none => rfl
  | some s =>
    by_cases h : s = SpeciesEnum.UNKNOWN
    · simp [normSpecies, h]
    · simp [normSpecies, h]

theorem mkProfile_idem (p : PetProfile) : mkProfile (mkProfile p) = mkProfile p := by
  simp [mkProfile, normScalar_idem, normSpecies_idem, sanitizeSymptoms_idem]

theorem merge_profiles_validated (p d : PetProfile) :
    (merge_profiles p d).Validated := by
  unfold merge_profiles PetProfile.Validated
  exact mkProfile_idem _

theorem validated_symptoms (p : PetProfile) (hp : p.Validated) :
    sanitizeSymptoms p.symptoms = p.symptoms :=
  congrArg PetProfile.symptoms hp

/-! ## Lemmas about `mergeSymptoms` -/

theorem mergeSymptoms_cons (cur : List String) (item : String) (δ : List String) :
    mergeSymptoms cur (item :: δ) =
      mergeSymptoms
        (if pyStrip item ≠ "" ∧ pyStrip item ∉ cur then cur ++ [pyStrip item] else cur) δ :=
  rfl

/-- `merge_profiles` only ever appends to the symptoms accumulator; the
appended items are stripped delta items that were not already present. -/
theorem mergeSymptoms_append_struct :
    ∀ (δ cur : List String), ∃ t, mergeSymptoms cur δ = cur ++ t ∧
      ∀ c ∈ t, (∃ item ∈ δ, c = pyStrip item) ∧ c ∉ cur ∧ c ≠ "" := by
  intro δ
  induction δ with
  | nil => intro cur; exact ⟨[], by simp [mergeSymptoms], by intro c hc; simp at hc⟩
  | cons item δ ih =>
    intro cur
    by_cases h : pyStrip item ≠ "" ∧ pyStrip item ∉ cur
    · obtain ⟨t₁, ht₁, hprop⟩ := ih (cur ++ [pyStrip item])
      refine ⟨pyStrip item :: t₁, ?_, ?_⟩
      · rw [mergeSymptoms_cons, if_pos h, ht₁]; simp
      · intro c hc
        rcases List.mem_cons.mp hc with rfl | hct
        · exact ⟨⟨item, List.mem_cons_self _ _, rfl⟩, h.2, h.1⟩
        · obtain ⟨⟨it, hit, hce⟩, hnm, hne⟩ := hprop c hct
          exact ⟨⟨it, List.mem_cons_of_mem _ hit, hce⟩,
            fun hmem => hnm (List.mem_append_left _ hmem), hne⟩
    · obtain ⟨t₁, ht₁, hprop⟩ := ih cur
      refine ⟨t₁, by rw [mergeSymptoms_cons, if_neg h]; exact ht₁, ?_⟩
      intro c hc
      obtain ⟨⟨it, hit, hce⟩, hnm, hne⟩ := hprop c hc
      exact ⟨⟨it, List.mem_cons_of_mem _ hit, hce⟩, hnm, hne⟩

theorem mem_mergeSymptoms_left {cur : List String} (δ : List String) {x : String}
    (hx : x ∈ cur) : x ∈ mergeSymptoms cur δ := by
  obtain ⟨t, ht, _⟩ := mergeSymptoms_append_struct δ cur
  rw [ht]
  exact List.mem_append_left _ hx

theorem mergeSymptoms_nodup :
    ∀ (δ cur : List String), cur.Nodup → (mergeSymptoms cur δ).Nodup := by
  intro δ
  induction δ with
  | nil => intro cur h; exact h
  | cons item δ ih =>
    intro cur h
    rw [mergeSymptoms_cons]
    by_cases hc : pyStrip item ≠ "" ∧ pyStrip item ∉ cur
    · rw [if_pos hc]
      exact ih _ (by simp [List.nodup_append, h, hc.2])
    · rw [if_neg hc]
      exact ih _ h

theorem pyStrip_mem_mergeSymptoms :
    ∀ (δ cur : List String) (item : String), item ∈ δ → pyStrip item ≠ "" →
      pyStrip item ∈ mergeSymptoms cur δ := by
  intro δ
  induction δ with
  | nil => intro cur item h; simp at h
  | cons hd δ ih =>
    intro cur item hmem hne
    rcases List.mem_cons.mp hmem with rfl | hit
    · rw [mergeSymptoms_cons]
      by_cases hc : pyStrip item ≠ "" ∧ pyStrip item ∉ cur
      · rw [if_pos hc]
        exact mem_mergeSymptoms_left δ (List.mem_append_right _ (List.mem_singleton.mpr rfl))
      · rw [if_neg hc]
        have : pyStrip item ∈ cur := by
          by_contra hn
          exact hc ⟨hne, hn⟩
        exact mem_mergeSymptoms_left δ this
    · rw [mergeSymptoms_cons]
      exact ih _ item hit hne

theorem mergeSymptoms_eq_self :
    ∀ (δ cur : List String), (∀ item ∈ δ, pyStrip item = "" ∨ pyStrip item ∈ cur) →
      mergeSymptoms cur δ = cur := by
  intro δ
  induction δ with
  | nil => intro cur _; rfl
  | cons hd δ ih =>
    intro cur h
    rw [mergeSymptoms_cons]
    have hc : ¬(pyStrip hd ≠ "" ∧ pyStrip hd ∉ cur) := by
      rcases h hd (List.mem_cons_self _ _) with he | hm
      · intro hcon; exact hcon.1 he
      · intro hcon; exact hcon.2 hm
    rw [if_neg hc]
    exact ih cur (fun item hi => h item (List.mem_cons_of_mem _ hi))

/-! ## Field-level reductions of `merge_profiles` -/

theorem merge_symptoms_def (p d : PetProfile) :
    (merge_profiles p d).symptoms = sanitizeSymptoms (mergeSymptoms p.symptoms d.symptoms) :=
  rfl

theorem overwrite_scalar_idem (a b : Option String) :
    normScalar (overwrite (normScalar (overwrite a b)) b) = normScalar (overwrite a b) := by
  cases b with
  | none => simp [overwrite, normScalar_idem]
  | some v => simp [overwrite]

theorem overwrite_species_idem (a b : Option SpeciesEnum) :
    normSpecies (overwriteSpecies (normSpecies (overwriteSpecies a b)) b) =
      normSpecies (overwriteSpecies a b) := by
  cases b with
  | none => simp [overwriteSpecies, normSpecies_idem]
  | some v => simp [overwriteSpecies]

/-- If both the accumulated symptoms and the delta symptoms are validated
items, re-merging the same delta changes nothing. -/
theorem sym_merge_idem_lists (cur δ : List String)
    (hcg : ∀ x ∈ cur, GoodSym x) (hdg : ∀ x ∈ δ, GoodSym x) :
    sanitizeSymptoms (mergeSymptoms (sanitizeSymptoms (mergeSymptoms cur δ)) δ)
      = sanitizeSymptoms (mergeSymptoms cur δ) := by
  obtain ⟨t, ht, hprop⟩ := mergeSymptoms_append_struct δ cur
  have hM1good : ∀ x ∈ mergeSymptoms cur δ, GoodSym x := by
    intro x hx
    rw [ht] at hx
    rcases List.mem_append.mp hx with hx | hx
    · exact hcg x hx
    · obtain ⟨⟨item, hitem, rfl⟩, _, _⟩ := hprop x hx
      have hg := hdg item hitem
      rw [hg.1]
      exact hg
  have hsan : sanitizeSymptoms (mergeSymptoms cur δ) = mergeSymptoms cur δ :=
    sanitizeSymptoms_eq_self _ hM1good
  rw [hsan]
  have hnoop : mergeSymptoms (mergeSymptoms cur δ) δ = mergeSymptoms cur δ := by
    apply mergeSymptoms_eq_self
    intro item hi
    have hg := hdg item hi
    refine Or.inr (pyStrip_mem_mergeSymptoms δ cur item hi ?_)
    rw [hg.1]
    exact hg.2.1
  rw [hnoop, hsan]

theorem merge_step_symptoms_stripped (p d : PetProfile) (hp : p.Validated) :
    ∀ x ∈ mergeSymptoms p.symptoms d.symptoms, pyStrip x = x := by
  intro x hx
  obtain ⟨t, ht, hprop⟩ := mergeSymptoms_append_struct d.symptoms p.symptoms
  rw [ht] at hx
  rcases List.mem_append.mp hx with hx | hx
  · exact (good_of_sanitize_eq_self _ (validated_symptoms p hp) x hx).1
  · obtain ⟨⟨item, _, rfl⟩, _, _⟩ := hprop x hx
    exact pyStrip_idem item

theorem merge_step_symptoms_nodup (p d : PetProfile) (hp : p.Validated)
    (hnd : p.symptoms.Nodup) : (merge_profiles p d).symptoms.Nodup := by
  rw [merge_symptoms_def]
  exact (sanitizeSymptoms_sublist _ (merge_step_symptoms_stripped p d hp)).nodup
    (mergeSymptoms_nodup _ _ hnd)

theorem merge_step_symptoms_prefix (p d : PetProfile) (hp : p.Validated) :
    ∃ t, (merge_profiles p d).symptoms = p.symptoms ++ t := by
  rw [merge_symptoms_def]
  obtain ⟨t, ht, _⟩ := mergeSymptoms_append_struct d.symptoms p.symptoms
  rw [ht, sanitizeSymptoms_append, validated_symptoms p hp]
  exact ⟨sanitizeSymptoms t, rfl⟩

theorem mergeAll_cons (p d : PetProfile) (ds : List PetProfile) :
    mergeAll p (d :: ds) = mergeAll (merge_profiles p d) ds :=
  rfl

/-! ## Claim C7: merge idempotence -/

/-- C7: profile merge is idempotent — for every (validated, as every pydantic
`PetProfile` instance is) profile `p` and delta `d`,
`merge(merge(p, d), d) = merge(p, d)`: overwrite fields are overwritten with
the same value again, and re-merging the symptoms delta adds nothing. -/
theorem merge_profiles_idem (p d : PetProfile) (hp : p.Validated) (hd : d.Validated) :
    merge_profiles (merge_profiles p d) d = merge_profiles p d := by
  have hpg : ∀ x ∈ p.symptoms, GoodSym x :=
    good_of_sanitize_eq_self _ (validated_symptoms p hp)
  have hdg : ∀ x ∈ d.symptoms, GoodSym x :=
    good_of_sanitize_eq_self _ (validated_symptoms d hd)
  have hsym := sym_merge_idem_lists p.symptoms d.symptoms hpg hdg
  simp only [merge_profiles, mkProfile, PetProfile.mk.injEq]
  exact ⟨overwrite_scalar_idem _ _, overwrite_species_idem _ _, overwrite_scalar_idem _ _,
    hsym, overwrite_scalar_idem _ _, overwrite_scalar_idem _ _, overwrite_scalar_idem _ _,
    overwrite_scalar_idem _ _⟩

/-- Witness for C7 at a concrete validated profile and delta. -/
theorem merge_profiles_idem_witness :
    merge_profiles
        (merge_profiles ({} : PetProfile)
          { name := some "Rex", species := some SpeciesEnum.DOG, symptoms := ["vomiting"] })
        { name := some "Rex", species := some SpeciesEnum.DOG, symptoms := ["vomiting"] } =
      merge_profiles ({} : PetProfile)
        { name := some "Rex", species := some SpeciesEnum.DOG, symptoms := ["vomiting"] } :=
  merge_profiles_idem _ _ (by decide) (by decide)

/-! ## Claim C4: symptom dedup and order -/

/-- C4 counterexample: the dedup check of `merge_profiles` is a case-sensitive
exact match after trimming (`clean_item not in updated_data[key]`), so merging
`"Vomiting"` and then `"vomiting"` yields a symptoms list with two entries that
are distinct strings but equal case-insensitively after trimming — refuting
the claimed case-insensitive deduplication. -/
theorem symptom_merge_case_insensitive_cex :
    (mergeAll {} [{ symptoms := ["Vomiting"] }, { symptoms := ["vomiting"] }]).symptoms =
        ["Vomiting", "vomiting"] ∧
      pyLower (pyStrip "Vomiting") = pyLower (pyStrip "vomiting") ∧
      ("Vomiting" : String) ≠ "vomiting" :=
  ⟨by decide, by decide, by decide⟩

/-- C4 (amended): after any sequence of merges into a validated profile whose
symptoms are duplicate-free, the symptoms list never contains two equal
entries (exact match; delta items are trimmed before comparison, but entries
differing only by case can coexist), and the merge is append-only: the prior
list is always a prefix of the new one, so first-seen order is preserved and
nothing is removed or reordered. -/
theorem symptom_merge_exact_dedup_append_only (p : PetProfile) (ds : List PetProfile)
    (hp : p.Validated) (hnd : p.symptoms.Nodup) :
    (mergeAll p ds).symptoms.Nodup ∧ ∃ t, (mergeAll p ds).symptoms = p.symptoms ++ t := by
  induction ds generalizing p with
  | nil => exact ⟨hnd, [], by simp [mergeAll]⟩
  | cons d ds ih =>
    have h1 := merge_profiles_validated p d
    have h2 := merge_step_symptoms_nodup p d hp hnd
    obtain ⟨t₀, ht₀⟩ := merge_step_symptoms_prefix p d hp
    obtain ⟨hnodup, t₁, hpre⟩ := ih (merge_profiles p d) h1 h2
    refine ⟨by rw [mergeAll_cons]; exact hnodup, t₀ ++ t₁, ?_⟩
    rw [mergeAll_cons, hpre, ht₀, List.append_assoc]

/-- Witness for the amended C4 at a concrete profile and delta sequence. -/
theorem symptom_merge_exact_dedup_append_only_witness :
    (mergeAll ({} : PetProfile)
        [{ symptoms := ["Vomiting"] }, { symptoms := ["fever"] }]).symptoms.Nodup ∧
      ∃ t, (mergeAll ({} : PetProfile)
        [{ symptoms := ["Vomiting"] }, { symptoms := ["fever"] }]).symptoms =
          ({} : PetProfile).symptoms ++ t :=
  symptom_merge_exact_dedup_append_only {} _ (by decide) (by decide)

/-! ## Claim C5: extractor error handling -/

/-- C5 (code-bug evidence): `extractor_node` has no try/except around the
structured-output call — the other model-calling nodes of the repository all
have one. The explicit `None` guard does return the profile unchanged, but a
raised model/transport error propagates out of the node instead of being
discarded, contradicting the spec's "extraction failure must never raise past
this component". -/
theorem extractor_error_propagates :
    extractor_node ({} : PetProfile) (Except.error "APIConnectionError") =
        Except.error "APIConnectionError" ∧
      extractor_node ({} : PetProfile) (Except.ok none) = Except.ok ({} : PetProfile) :=
  ⟨rfl, rfl⟩

/-! ## Claim C6: critic fallback behaviour -/

/-- C6: the critic node always returns exactly one user-facing message; with
no draft (which is what the actor produces on empty evidence, without
consulting the model) it returns the hardcoded fallback; when its own model
call raises it returns a hardcoded error message; both hardcoded messages
recommend veterinary consultation, so no raw error reaches the user. -/
theorem critic_fallback_single_message :
    (∀ (draft : Option DiagnosisActorOutput) (call : Except String DiagnosisCriticOutput),
        (diagnosis_critic_node draft call).length = 1) ∧
    (∀ call : Except String DiagnosisActorOutput, diagnosis_actor_node [] call = none) ∧
    (∀ call : Except String DiagnosisCriticOutput,
        diagnosis_critic_node none call = [⟨criticFallbackMsg, some "VeterinaryAgent"⟩]) ∧
    (∀ (draft : Option DiagnosisActorOutput) (e : String),
        diagnosis_critic_node draft (Except.error e) =
          [match draft with
           | none => ⟨criticFallbackMsg, some "VeterinaryAgent"⟩
           | some _ => ⟨criticErrorMsg, some "System"⟩]) ∧
    containsText "consult a vet" criticFallbackMsg = true ∧
    containsText "consult a vet" criticErrorMsg = true := by
  refine ⟨?_, ?_, ?_, ?_, by decide, by decide⟩
  · intro draft call
    cases draft <;> cases call <;> rfl
  · intro call
    rfl
  · intro call
    rfl
  · intro draft e
    cases draft <;> rfl

/-! ## Claim C1: inquiry loop termination -/

theorem inquiry_node_turns (q : AIMessage) (st : InquiryState) :
    (inquiry_node q st).inquiry_turns = st.inquiry_turns + 1 := by
  simp only [inquiry_node]
  split_ifs <;> rfl

theorem inquiry_node_ready (q : AIMessage) (st : InquiryState)
    (h3 : st.inquiry_turns ≥ 3) (hmm : missingMandatory st.pet_profile = []) :
    (inquiry_node q st).agent_status = some AgentStatus.DIAGNOSIS := by
  simp only [inquiry_node]
  rw [if_pos ⟨hmm, Or.inr (Or.inr h3)⟩]

theorem inquiry_node_abort (q : AIMessage) (st : InquiryState)
    (h3 : st.inquiry_turns ≥ 3) (hmm : missingMandatory st.pet_profile ≠ []) :
    (inquiry_node q st).agent_status = some AgentStatus.END ∧
      (inquiry_node q st).messages = [] := by
  have hcond : ¬(missingMandatory st.pet_profile = [] ∧
      (missingOptional st.pet_profile = [] ∨ st.additional_inquiry_turns > 0 ∨
        st.inquiry_turns ≥ 3)) := fun hc => hmm hc.1
  constructor <;>
    (simp only [inquiry_node]; rw [if_neg hcond, if_pos h3])

theorem inquiryTurnsSeq_eq (profiles : ℕ → PetProfile) (addls : ℕ → ℕ)
    (qs : ℕ → AIMessage) : ∀ n, inquiryTurnsSeq profiles addls qs n = n := by
  intro n
  induction n with
  | zero => rfl
  | succ n ih =>
    show (inquiry_node (qs n) ⟨profiles n, inquiryTurnsSeq profiles addls qs n, addls n⟩).inquiry_turns = n + 1
    rw [inquiry_node_turns]
    simpa using ih

/-- C1: whenever `inquiry_node` runs with `inquiry_turns ≥ 3` it reaches a
terminal state without asking a question — `DIAGNOSIS` when no mandatory
field is missing, `END` with an empty message list when one is; every call
increments the counter by one, so along any adversarial run (arbitrary
profile and additional-round counter at every step) a terminal status is
reached within the first four invocations, i.e. after at most 3
question-asking turns: the loop cannot run forever. -/
theorem inquiry_terminates :
    (∀ (q : AIMessage) (st : InquiryState),
        (inquiry_node q st).inquiry_turns = st.inquiry_turns + 1) ∧
    (∀ (q : AIMessage) (st : InquiryState), st.inquiry_turns ≥ 3 →
        (missingMandatory st.pet_profile = [] →
          (inquiry_node q st).agent_status = some AgentStatus.DIAGNOSIS) ∧
        (missingMandatory st.pet_profile ≠ [] →
          (inquiry_node q st).agent_status = some AgentStatus.END ∧
            (inquiry_node q st).messages = [])) ∧
    (∀ (profiles : ℕ → PetProfile) (addls : ℕ → ℕ) (qs : ℕ → AIMessage),
        ∃ n ≤ 3,
          (inquiryRun profiles addls qs n).agent_status = some AgentStatus.DIAGNOSIS ∨
          (inquiryRun profiles addls qs n).agent_status = some AgentStatus.END) := by
  refine ⟨inquiry_node_turns, ?_, ?_⟩
  · intro q st h3
    exact ⟨inquiry_node_ready q st h3, inquiry_node_abort q st h3⟩
  · intro profiles addls qs
    refine ⟨3, le_refl 3, ?_⟩
    have hst : inquiryTurnsSeq profiles addls qs 3 = 3 := inquiryTurnsSeq_eq profiles addls qs 3
    by_cases hm : missingMandatory (profiles 3) = []
    · left
      exact inquiry_node_ready _ _ (by simp [hst]) hm
    · right
      exact (inquiry_node_abort _ _ (by simp [hst]) hm).1

/-- Witness for C1: with an empty profile at turn counter 3 the controller
aborts, emitting no question. -/
theorem inquiry_terminates_witness :
    (inquiry_node ⟨"q", none⟩ ⟨{}, 3, 0⟩).agent_status = some AgentStatus.END ∧
      (inquiry_node ⟨"q", none⟩ ⟨{}, 3, 0⟩).messages = [] :=
  (inquiry_terminates.2.1 ⟨"q", none⟩ ⟨{}, 3, 0⟩ (by decide)).2 (by decide)

/-! ## Lemmas about RRF fusion -/

theorem entryOf_rrfUpdate (k : ℕ) (w : ℚ) (src : String) (rank : ℕ) (hit : Hit)
    (acc : List FusedItem) (i : Int) :
    entryOf i (rrfUpdate k w src rank hit acc) =
      if hit.id = i then some (rrfUpdatedEntry k w src rank hit (entryOf i acc))
      else entryOf i acc := by
  unfold rrfUpdate entryOf
  by_cases hmem : ∃ f ∈ acc, f.hit.id = hit.id
  · rw [if_pos hmem, List.find?_map]
    have hpg : ((fun f : FusedItem => decide (f.hit.id = i)) ∘
        (fun f => if f.hit.id = hit.id then
          { f with score := f.score + w / ((k : ℚ) + rank + 1), sources := f.sources ++ [src] }
        else f)) = fun f : FusedItem => decide (f.hit.id = i) := by
      funext f
      by_cases hf : f.hit.id = hit.id <;> simp [Function.comp, hf]
    rw [hpg]
    by_cases hid : hit.id = i
    · rw [if_pos hid]
      cases hfind : acc.find? (fun f => decide (f.hit.id = i)) with
      | none =>
        obtain ⟨f0, hf0mem, hf0id⟩ := hmem
        have hsome : (acc.find? (fun f => decide (f.hit.id = i))).isSome := by
          rw [List.find?_isSome]
          exact ⟨f0, hf0mem, by simp [hf0id, hid]⟩
        rw [hfind] at hsome
        simp at hsome
      | some f0 =>
        have hp := List.find?_some hfind
        have hf0 : f0.hit.id = i := by simpa using hp
        simp only [Option.map_some']
        rw [if_pos (hf0.trans hid.symm)]
        simp [rrfUpdatedEntry]
    · rw [if_neg hid]
      cases hfind : acc.find? (fun f => decide (f.hit.id = i)) with
      | none => simp
      | some f0 =>
        have hp := List.find?_some hfind
        have hf0 : f0.hit.id = i := by simpa using hp
        have hne : ¬(f0.hit.id = hit.id) := by
          rw [hf0]; exact fun hc => hid hc.symm
        simp only [Option.map_some']
        rw [if_neg hne]
  · rw [if_neg hmem, List.find?_append]
    by_cases hid : hit.id = i
    · have hnone : acc.find? (fun f => decide (f.hit.id = i)) = none := by
        cases hfind : acc.find? (fun f => decide (f.hit.id = i)) with
        | none => rfl
        | some f0 =>
          have hp : f0.hit.id = i := by simpa using List.find?_some hfind
          exact absurd ⟨f0, List.mem_of_find?_eq_some hfind, hp.trans hid.symm⟩ hmem
      rw [hnone, if_pos hid]
      simp [List.find?_cons, hid, rrfUpdatedEntry, hnone]
    · rw [if_neg hid]
      have hsingle : ([{ hit := hit, score := 0 + w / ((k : ℚ) + rank + 1), sources := [src] }] :
          List FusedItem).find? (fun f => decide (f.hit.id = i)) = none := by
        simp [List.find?_cons, hid]
      rw [hsingle, Option.or_none]

theorem scoreOf_rrfUpdate (k : ℕ) (w : ℚ) (src : String) (rank : ℕ) (hit : Hit)
    (acc : List FusedItem) (i : Int) :
    scoreOf i (rrfUpdate k w src rank hit acc) =
      scoreOf i acc + (if hit.id = i then w / ((k : ℚ) + rank + 1) else 0) := by
  unfold scoreOf
  rw [entryOf_rrfUpdate]
  by_cases hid : hit.id = i
  · rw [if_pos hid, if_pos hid]
    cases entryOf i acc <;> simp [rrfUpdatedEntry]
  · rw [if_neg hid, if_neg hid]
    simp

theorem sourcesOf_rrfUpdate (k : ℕ) (w : ℚ) (src : String) (rank : ℕ) (hit : Hit)
    (acc : List FusedItem) (i : Int) :
    sourcesOf i (rrfUpdate k w src rank hit acc) =
      sourcesOf i acc ++ (if hit.id = i then [src] else []) := by
  unfold sourcesOf
  rw [entryOf_rrfUpdate]
  by_cases hid : hit.id = i
  · rw [if_pos hid, if_pos hid]
    cases entryOf i acc <;> simp [rrfUpdatedEntry]
  · rw [if_neg hid, if_neg hid]
    simp

theorem entryOf_rrfUpdate_none (k : ℕ) (w : ℚ) (src : String) (rank : ℕ) (hit : Hit)
    (acc : List FusedItem) (i : Int) :
    entryOf i (rrfUpdate k w src rank hit acc) = none ↔
      entryOf i acc = none ∧ ¬(hit.id = i) := by
  rw [entryOf_rrfUpdate]
  by_cases hid : hit.id = i
  · rw [if_pos hid]
    simp [hid]
  · rw [if_neg hid]
    simp [hid]

theorem scoreOf_rrfPass (k : ℕ) (w : ℚ) (src : String) :
    ∀ (hits : List Hit) (r : ℕ) (acc : List FusedItem) (i : Int),
      scoreOf i (rrfPass k w src r hits acc) = scoreOf i acc + contribFrom k w i r hits := by
  intro hits
  induction hits with
  | nil => intro r acc i; simp [rrfPass, contribFrom]
  | cons h t ih =>
    intro r acc i
    show scoreOf i (rrfPass k w src (r + 1) t (rrfUpdate k w src r h acc)) = _
    rw [ih, scoreOf_rrfUpdate]
    show _ = scoreOf i acc +
      ((if h.id = i then w / ((k : ℚ) + r + 1) else 0) + contribFrom k w i (r + 1) t)
    ring

theorem sourcesOf_rrfPass (k : ℕ) (w : ℚ) (src : String) :
    ∀ (hits : List Hit) (r : ℕ) (acc : List FusedItem) (i : Int),
      sourcesOf i (rrfPass k w src r hits acc) =
        sourcesOf i acc ++ List.replicate (occCount i hits) src := by
  intro hits
  induction hits with
  | nil => intro r acc i; simp [rrfPass, occCount]
  | cons h t ih =>
    intro r acc i
    show sourcesOf i (rrfPass k w src (r + 1) t (rrfUpdate k w src r h acc)) = _
    rw [ih, sourcesOf_rrfUpdate]
    show _ = sourcesOf i acc ++ List.replicate ((if h.id = i then 1 else 0) + occCount i t) src
    by_cases hid : h.id = i
    · simp [hid, List.replicate_succ, Nat.add_comm 1 (occCount i t), List.replicate_add]
    · simp [hid]

theorem entryOf_rrfPass_none (k : ℕ) (w : ℚ) (src : String) :
    ∀ (hits : List Hit) (r : ℕ) (acc : List FusedItem) (i : Int),
      entryOf i (rrfPass k w src r hits acc) = none ↔
        entryOf i acc = none ∧ occCount i hits = 0 := by
  intro hits
  induction hits with
  | nil => intro r acc i; simp [rrfPass, occCount]
  | cons h t ih =>
    intro r acc i
    show entryOf i (rrfPass k w src (r + 1) t (rrfUpdate k w src r h acc)) = none ↔ _
    rw [ih, entryOf_rrfUpdate_none]
    show _ ↔ entryOf i acc = none ∧ (if h.id = i then 1 else 0) + occCount i t = 0
    by_cases hid : h.id = i <;> simp [hid, and_assoc, And.comm]

theorem fidsOf_rrfUpdate (k : ℕ) (w : ℚ) (src : String) (rank : ℕ) (hit : Hit)
    (acc : List FusedItem) (hnd : (fidsOf acc).Nodup) :
    (fidsOf (rrfUpdate k w src rank hit acc)).Nodup := by
  unfold rrfUpdate
  by_cases hmem : ∃ f ∈ acc, f.hit.id = hit.id
  · rw [if_pos hmem]
    have : fidsOf (acc.map (fun f => if f.hit.id = hit.id then
        { f with score := f.score + w / ((k : ℚ) + rank + 1), sources := f.sources ++ [src] }
      else f)) = fidsOf acc := by
      unfold fidsOf
      rw [List.map_map]
      apply List.map_congr_left
      intro f _
      by_cases hf : f.hit.id = hit.id <;> simp [Function.comp, hf]
    rw [this]
    exact hnd
  · rw [if_neg hmem]
    unfold fidsOf
    rw [List.map_append]
    simp only [List.map_cons, List.map_nil]
    rw [List.nodup_append]
    refine ⟨hnd, List.nodup_singleton _, ?_⟩
    intro x hx
    simp only [List.mem_singleton]
    intro hc
    obtain ⟨f, hf, hfid⟩ := List.mem_map.mp hx
    exact hmem ⟨f, hf, hfid.trans hc⟩

theorem fidsOf_rrfPass (k : ℕ) (w : ℚ) (src : String) :
    ∀ (hits : List Hit) (r : ℕ) (acc : List FusedItem),
      (fidsOf acc).Nodup → (fidsOf (rrfPass k w src r hits acc)).Nodup := by
  intro hits
  induction hits with
  | nil => intro r acc h; exact h
  | cons h t ih =>
    intro r acc hnd
    exact ih (r + 1) _ (fidsOf_rrfUpdate k w src r h acc hnd)

theorem entryOf_self :
    ∀ (l : List FusedItem), (fidsOf l).Nodup → ∀ f ∈ l, entryOf f.hit.id l = some f := by
  intro l
  induction l with
  | nil => intro _ f hf; simp at hf
  | cons a t ih =>
    intro hnd f hf
    have hnd' : (a.hit.id :: fidsOf t).Nodup := hnd
    have h1 : a.hit.id ∉ fidsOf t := (List.nodup_cons.mp hnd').1
    have h2 : (fidsOf t).Nodup := (List.nodup_cons.mp hnd').2
    rcases List.mem_cons.mp hf with rfl | hft
    · unfold entryOf
      rw [List.find?_cons_of_pos _ (by simp)]
    · have hne : ¬(a.hit.id = f.hit.id) := by
        intro hc
        exact h1 (hc ▸ List.mem_map.mpr ⟨f, hft, rfl⟩)
      unfold entryOf
      rw [List.find?_cons_of_neg _ (by simpa using hne)]
      exact ih h2 f hft

theorem contribFrom_of_not_mem (k : ℕ) (w : ℚ) (i : Int) :
    ∀ (hits : List Hit) (r : ℕ), i ∉ idsOf hits → contribFrom k w i r hits = 0 := by
  intro hits
  induction hits with
  | nil => intro r _; rfl
  | cons h t ih =>
    intro r hni
    have hni' : ¬(i = h.id ∨ i ∈ idsOf t) := by simpa [idsOf] using hni
    show (if h.id = i then w / ((k : ℚ) + r + 1) else 0) + contribFrom k w i (r + 1) t = 0
    rw [if_neg (fun hc => hni' (Or.inl hc.symm)),
      ih (r + 1) (fun hc => hni' (Or.inr hc))]
    simp

theorem contribFrom_findIdx (k : ℕ) (w : ℚ) (i : Int) :
    ∀ (hits : List Hit), (idsOf hits).Nodup → ∀ r : ℕ,
      contribFrom k w i r hits =
        (hits.findIdx? (fun h => decide (h.id = i)) r).elim 0
          (fun j => w / ((k : ℚ) + j + 1)) := by
  intro hits
  induction hits with
  | nil => intro _ r; rfl
  | cons h t ih =>
    intro hnd r
    have hnd' : (h.id :: idsOf t).Nodup := hnd
    show (if h.id = i then w / ((k : ℚ) + r + 1) else 0) + contribFrom k w i (r + 1) t = _
    by_cases hid : h.id = i
    · rw [if_pos hid, contribFrom_of_not_mem k w i t (r + 1)
        (fun hmem => (List.nodup_cons.mp hnd').1 (hid ▸ hmem))]
      rw [List.findIdx?_cons, if_pos (by simp [hid])]
      simp
    · rw [if_neg hid, List.findIdx?_cons, if_neg (by simp [hid]),
        ih (List.nodup_cons.mp hnd').2 (r + 1)]
      simp

theorem occCount_of_not_mem (i : Int) :
    ∀ hits : List Hit, i ∉ idsOf hits → occCount i hits = 0 := by
  intro hits
  induction hits with
  | nil => intro _; rfl
  | cons h t ih =>
    intro hni
    have hni' : ¬(i = h.id ∨ i ∈ idsOf t) := by simpa [idsOf] using hni
    show (if h.id = i then 1 else 0) + occCount i t = 0
    rw [if_neg (fun hc => hni' (Or.inl hc.symm)), ih (fun hc => hni' (Or.inr hc))]

theorem occCount_nodup (i : Int) :
    ∀ hits : List Hit, (idsOf hits).Nodup →
      occCount i hits = if ∃ h ∈ hits, h.id = i then 1 else 0 := by
  intro hits
  induction hits with
  | nil => intro _; simp [occCount]
  | cons h t ih =>
    intro hnd
    have hnd' : (h.id :: idsOf t).Nodup := hnd
    show (if h.id = i then 1 else 0) + occCount i t = _
    by_cases hid : h.id = i
    · rw [if_pos hid, occCount_of_not_mem i t
        (fun hmem => (List.nodup_cons.mp hnd').1 (hid ▸ hmem))]
      rw [if_pos ⟨h, List.mem_cons_self _ _, hid⟩]
    · rw [if_neg hid, ih (List.nodup_cons.mp hnd').2]
      by_cases hex : ∃ x ∈ t, x.id = i
      · rw [if_pos hex, if_pos]
        obtain ⟨x, hx, hxi⟩ := hex
        exact ⟨x, List.mem_cons_of_mem _ hx, hxi⟩
      · rw [if_neg hex, if_neg]
        intro ⟨x, hx, hxi⟩
        rcases List.mem_cons.mp hx with rfl | hxt
        · exact hid hxi
        · exact hex ⟨x, hxt, hxi⟩

theorem occCount_ne_zero_of_findIdx (i : Int) :
    ∀ (hits : List Hit) (s r : ℕ),
      hits.findIdx? (fun h => decide (h.id = i)) s = some r → occCount i hits ≠ 0 := by
  intro hits
  induction hits with
  | nil => intro s r h; simp at h
  | cons h t ih =>
    intro s r hfind
    rw [List.findIdx?_cons] at hfind
    show (if h.id = i then 1 else 0) + occCount i t ≠ 0
    by_cases hid : h.id = i
    · rw [if_pos hid]; omega
    · rw [if_neg (by simp [hid])] at hfind
      have := ih (s + 1) r hfind
      rw [if_neg hid]
      omega

theorem fused_pre_nodup (k : ℕ) (dense sparse : List Hit) :
    (fidsOf (rrfPass k 1 "sparse" 0 sparse (rrfPass k 1 "dense" 0 dense []))).Nodup :=
  fidsOf_rrfPass _ _ _ sparse 0 _
    (fidsOf_rrfPass _ _ _ dense 0 [] (by simp [fidsOf]))

/-- The cumulative score of every item of the fused output is exactly the
sum of the per-list RRF contributions at the item's ranks. -/
theorem rrf_member_score (k : ℕ) (dense sparse : List Hit)
    (hd : (idsOf dense).Nodup) (hs : (idsOf sparse).Nodup) :
    ∀ f ∈ reciprocal_rank_fusion dense sparse k,
      f.score = rrfContrib k 1 f.hit.id dense + rrfContrib k 1 f.hit.id sparse := by
  intro f hf
  have hfM : f ∈ rrfPass k 1 "sparse" 0 sparse (rrfPass k 1 "dense" 0 dense []) :=
    List.mem_mergeSort.mp hf
  have hentry := entryOf_self _ (fused_pre_nodup k dense sparse) f hfM
  have hscore : scoreOf f.hit.id
      (rrfPass k 1 "sparse" 0 sparse (rrfPass k 1 "dense" 0 dense [])) = f.score := by
    unfold scoreOf
    rw [hentry]
    rfl
  rw [← hscore, scoreOf_rrfPass, scoreOf_rrfPass]
  have hz : scoreOf f.hit.id ([] : List FusedItem) = 0 := rfl
  rw [hz, contribFrom_findIdx k 1 f.hit.id dense hd 0,
    contribFrom_findIdx k 1 f.hit.id sparse hs 0]
  unfold rrfContrib rankOf
  simp

/-- The recorded source tags of every item of the fused output are one
`"dense"` tag per occurrence in the dense list followed by one `"sparse"` tag
per occurrence in the sparse list. -/
theorem rrf_member_sources (k : ℕ) (dense sparse : List Hit) :
    ∀ f ∈ reciprocal_rank_fusion dense sparse k,
      f.sources = List.replicate (occCount f.hit.id dense) "dense" ++
        List.replicate (occCount f.hit.id sparse) "sparse" := by
  intro f hf
  have hfM : f ∈ rrfPass k 1 "sparse" 0 sparse (rrfPass k 1 "dense" 0 dense []) :=
    List.mem_mergeSort.mp hf
  have hentry := entryOf_self _ (fused_pre_nodup k dense sparse) f hfM
  have hsrc : sourcesOf f.hit.id
      (rrfPass k 1 "sparse" 0 sparse (rrfPass k 1 "dense" 0 dense [])) = f.sources := by
    unfold sourcesOf
    rw [hentry]
    rfl
  rw [← hsrc, sourcesOf_rrfPass, sourcesOf_rrfPass]
  have hz : sourcesOf f.hit.id ([] : List FusedItem) = [] := rfl
  rw [hz]
  simp

/-! ## Claim C2: the RRF score formula and descending order -/

/-- C2: for duplicate-free recall lists, every fused item's cumulative score
is the sum over the source lists containing its id of `weight / (k + r + 1)`
with `r` its 0-based rank in that list (weight 1.0 per list, 0 for a list not
containing it), and the fused output is sorted by cumulative score in
descending order. -/
theorem rrf_score_formula_sorted (k : ℕ) (dense sparse : List Hit)
    (hd : (idsOf dense).Nodup) (hs : (idsOf sparse).Nodup) :
    (∀ f ∈ reciprocal_rank_fusion dense sparse k,
        f.score = rrfContrib k 1 f.hit.id dense + rrfContrib k 1 f.hit.id sparse) ∧
    (reciprocal_rank_fusion dense sparse k).Pairwise (fun a b => b.score ≤ a.score) := by
  refine ⟨rrf_member_score k dense sparse hd hs, ?_⟩
  have hpair := @List.sorted_mergeSort FusedItem fusedLE
    (fun a b c hab hbc => by
      simp only [fusedLE, decide_eq_true_eq] at *
      exact le_trans hbc hab)
    (fun a b => by
      simp only [fusedLE]
      rcases le_total b.score a.score with h | h <;> simp [h])
    (rrfPass k 1 "sparse" 0 sparse (rrfPass k 1 "dense" 0 dense []))
  unfold reciprocal_rank_fusion
  exact hpair.imp (fun h => by simpa [fusedLE] using h)

/-- Witness for C2 at concrete two-element recall lists. -/
theorem rrf_score_formula_sorted_witness :
    (∀ f ∈ reciprocal_rank_fusion
        [⟨1, ⟨"a", none, none, [], none⟩⟩, ⟨2, ⟨"b", none, none, [], none⟩⟩]
        [⟨2, ⟨"b", none, none, [], none⟩⟩] 40,
      f.score = rrfContrib 40 1 f.hit.id
          [⟨1, ⟨"a", none, none, [], none⟩⟩, ⟨2, ⟨"b", none, none, [], none⟩⟩] +
        rrfContrib 40 1 f.hit.id [⟨2, ⟨"b", none, none, [], none⟩⟩]) ∧
    (reciprocal_rank_fusion
        [⟨1, ⟨"a", none, none, [], none⟩⟩, ⟨2, ⟨"b", none, none, [], none⟩⟩]
        [⟨2, ⟨"b", none, none, [], none⟩⟩] 40).Pairwise (fun a b => b.score ≤ a.score) :=
  rrf_score_formula_sorted 40 _ _ (by decide) (by decide)

/-! ## Claim C8: an item in both lists beats a single-list item at the
same best rank -/

/-- C8: with duplicate-free recall lists, an item appearing in both the dense
and the sparse list (at 0-based ranks `r1`, `r2`) is present in the fused
output and receives a strictly higher cumulative score than any item
appearing in exactly one of the lists at rank `min r1 r2`. -/
theorem rrf_both_lists_beats_single (k : ℕ) (dense sparse : List Hit) (xid yid : Int)
    (r1 r2 : ℕ) (hd : (idsOf dense).Nodup) (hs : (idsOf sparse).Nodup)
    (hx1 : rankOf xid dense = some r1) (hx2 : rankOf xid sparse = some r2)
    (hy : (rankOf yid dense = some (min r1 r2) ∧ rankOf yid sparse = none) ∨
          (rankOf yid sparse = some (min r1 r2) ∧ rankOf yid dense = none)) :
    (∃ fx ∈ reciprocal_rank_fusion dense sparse k, fx.hit.id = xid) ∧
    (∀ fx ∈ reciprocal_rank_fusion dense sparse k, fx.hit.id = xid →
      ∀ fy ∈ reciprocal_rank_fusion dense sparse k, fy.hit.id = yid →
        fy.score < fx.score) := by
  have hocc : occCount xid dense ≠ 0 := occCount_ne_zero_of_findIdx xid dense 0 r1 hx1
  constructor
  · -- the id is present in the fused output
    cases hent : entryOf xid (rrfPass k 1 "sparse" 0 sparse (rrfPass k 1 "dense" 0 dense [])) with
    | none =>
      rw [entryOf_rrfPass_none, entryOf_rrfPass_none] at hent
      exact absurd hent.1.2 hocc
    | some fx =>
      have hmem : fx ∈ rrfPass k 1 "sparse" 0 sparse (rrfPass k 1 "dense" 0 dense []) :=
        List.mem_of_find?_eq_some hent
      have hfxid : fx.hit.id = xid := by simpa using List.find?_some hent
      exact ⟨fx, List.mem_mergeSort.mpr hmem, hfxid⟩
  · intro fx hfx hfxid fy hfy hfyid
    have hxs := rrf_member_score k dense sparse hd hs fx hfx
    have hys := rrf_member_score k dense sparse hd hs fy hfy
    rw [hfxid] at hxs
    rw [hfyid] at hys
    rw [hxs, hys]
    unfold rrfContrib
    rw [hx1, hx2]
    have hp1 : (0 : ℚ) < 1 / ((k : ℚ) + r1 + 1) := by positivity
    have hp2 : (0 : ℚ) < 1 / ((k : ℚ) + r2 + 1) := by positivity
    rcases hy with ⟨hyd, hys'⟩ | ⟨hys', hyd⟩
    · rw [hyd, hys']
      rcases Nat.le_total r1 r2 with h12 | h21
      · rw [Nat.min_eq_left h12]
        simp only [Option.elim]
        linarith
      · rw [Nat.min_eq_right h21]
        simp only [Option.elim]
        linarith
    · rw [hys', hyd]
      rcases Nat.le_total r1 r2 with h12 | h21
      · rw [Nat.min_eq_left h12]
        simp only [Option.elim]
        linarith
      · rw [Nat.min_eq_right h21]
        simp only [Option.elim]
        linarith

/-- Witness for C8: id 1 sits at rank 0 in the dense list and rank 1 in the
sparse list; id 3 sits only in the sparse list at rank `min 0 1 = 0`. -/
theorem rrf_both_lists_beats_single_witness :
    (∃ fx ∈ reciprocal_rank_fusion [⟨1, ⟨"a", none, none, [], none⟩⟩]
        [⟨3, ⟨"c", none, none, [], none⟩⟩, ⟨1, ⟨"a", none, none, [], none⟩⟩] 40,
      fx.hit.id = 1) ∧
    (∀ fx ∈ reciprocal_rank_fusion [⟨1, ⟨"a", none, none, [], none⟩⟩]
        [⟨3, ⟨"c", none, none, [], none⟩⟩, ⟨1, ⟨"a", none, none, [], none⟩⟩] 40,
      fx.hit.id = 1 →
      ∀ fy ∈ reciprocal_rank_fusion [⟨1, ⟨"a", none, none, [], none⟩⟩]
          [⟨3, ⟨"c", none, none, [], none⟩⟩, ⟨1, ⟨"a", none, none, [], none⟩⟩] 40,
        fy.hit.id = 3 → fy.score < fx.score) :=
  rrf_both_lists_beats_single 40 _ _ 1 3 0 1 (by decide) (by decide)
    (by decide) (by decide) (Or.inr ⟨by decide, by decide⟩)

/-! ## Claim C10: result count bound of `Retriever.search` -/

/-- C10: `Retriever.search` returns at most `limit` results — the re-ranked
path slices the reranker output to `limit`, the non-re-ranked path slices the
fused list to `limit`, whatever the recall lists contain. -/
theorem search_length_le_limit (use_reranker : Bool)
    (ranker : String → List Candidate → List RerankEntry) (query : String)
    (limit : ℕ) (dense sparse : List Hit) :
    (search use_reranker ranker query limit dense sparse).length ≤ limit := by
  simp only [search]
  split
  · rw [List.length_map]
    exact List.length_take_le _ _
  · rw [List.length_map]
    exact List.length_take_le _ _

/-! ## Claim C9: provenance tags of `Retriever.search` -/

/-- C9 counterexample: with re-ranking enabled (the default configuration),
a hit appearing in both recall lists comes back tagged `"reranked"`, not with
the source lists it appeared in — refuting the claim that every
`SearchResult` of `Retriever.search` records its source lists regardless of
re-ranking. -/
theorem search_provenance_reranked_cex :
    ¬(∀ res ∈ search true (fun _ cs => cs.map (fun c => ⟨c.id, 1, c.text, c.meta⟩)) "q" 10
        [⟨1, ⟨"t", none, none, [], none⟩⟩] [⟨1, ⟨"t", none, none, [], none⟩⟩],
      res.source = String.intercalate "+"
        (claimedProvenance res.id [⟨1, ⟨"t", none, none, [], none⟩⟩]
          [⟨1, ⟨"t", none, none, [], none⟩⟩])) := by
  intro hclaim
  have heval : search true (fun _ cs => cs.map (fun c => ⟨c.id, 1, c.text, c.meta⟩)) "q" 10
      [⟨1, ⟨"t", none, none, [], none⟩⟩] [⟨1, ⟨"t", none, none, [], none⟩⟩] =
      [⟨1, 1, "t", ⟨"t", none, none, [], none⟩, "reranked"⟩] := by
    simp [search, reciprocal_rank_fusion, rrfPass, rrfUpdate]
  have hres := hclaim _ (by rw [heval]; exact List.mem_singleton.mpr rfl)
  revert hres
  decide

/-- C9 (amended): in the non-re-ranked path every result's `source` is the
`"+"`-join of exactly the source lists its id appeared in (dense before
sparse); in the re-ranked path every result's `source` is the constant
`"reranked"`, and the per-list provenance is not propagated. -/
theorem search_provenance_amended (ranker : String → List Candidate → List RerankEntry)
    (query : String) (limit : ℕ) (dense sparse : List Hit)
    (hd : (idsOf dense).Nodup) (hs : (idsOf sparse).Nodup) :
    (∀ res ∈ search false ranker query limit dense sparse,
        res.source = String.intercalate "+" (claimedProvenance res.id dense sparse)) ∧
    (∀ res ∈ search true ranker query limit dense sparse, res.source = "reranked") := by
  constructor
  · intro res hres
    unfold search at hres
    rw [if_neg (by simp)] at hres
    obtain ⟨item, hitem, rfl⟩ := List.mem_map.mp hres
    have hmem : item ∈ reciprocal_rank_fusion dense sparse 40 :=
      List.mem_of_mem_take hitem
    have hsrc := rrf_member_sources 40 dense sparse item hmem
    show String.intercalate "+" item.sources = _
    rw [hsrc, occCount_nodup _ dense hd, occCount_nodup _ sparse hs]
    unfold claimedProvenance
    by_cases h1 : ∃ h ∈ dense, h.id = item.hit.id <;>
      by_cases h2 : ∃ h ∈ sparse, h.id = item.hit.id <;>
        simp [h1, h2]
  · intro res hres
    simp only [search] at hres
    split at hres
    · obtain ⟨r, _, rfl⟩ := List.mem_map.mp hres
      rfl
    · rename_i hcond
      simp only [ne_eq, not_and, not_not, forall_const, List.map_eq_nil_iff] at hcond
      rw [hcond] at hres
      simp at hres

/-- Witness for the amended C9 at concrete recall lists and a concrete
reranker. -/
theorem search_provenance_amended_witness :
    (∀ res ∈ search false (fun _ cs => cs.map (fun c => ⟨c.id, 1, c.text, c.meta⟩)) "q" 10
        [⟨1, ⟨"t", none, none, [], none⟩⟩] [⟨1, ⟨"t", none, none, [], none⟩⟩],
      res.source = String.intercalate "+"
        (claimedProvenance res.id [⟨1, ⟨"t", none, none, [], none⟩⟩]
          [⟨1, ⟨"t", none, none, [], none⟩⟩])) ∧
    (∀ res ∈ search true (fun _ cs => cs.map (fun c => ⟨c.id, 1, c.text, c.meta⟩)) "q" 10
        [⟨1, ⟨"t", none, none, [], none⟩⟩] [⟨1, ⟨"t", none, none, [], none⟩⟩],
      res.source = "reranked") :=
  search_provenance_amended _ "q" 10 _ _ (by decide) (by decide)

/-! ## Lemmas about the cross-query dedup (src/agents/diagnosis_retriever.py) -/

theorem dedupStep_find? (acc : List SearchResult) (r : SearchResult) (i : Int) :
    (if ∃ x ∈ acc, x.id = r.id then acc.map (fun x => if x.id = r.id then r else x)
     else acc ++ [r]).find? (fun x => decide (x.id = i)) =
      if r.id = i then some r else acc.find? (fun x => decide (x.id = i)) := by
  by_cases hmem : ∃ x ∈ acc, x.id = r.id
  · rw [if_pos hmem, List.find?_map]
    have hpg : ((fun x : SearchResult => decide (x.id = i)) ∘
        (fun x => if x.id = r.id then r else x)) =
          fun x : SearchResult => decide (x.id = i) := by
      funext x
      by_cases hx : x.id = r.id <;> simp [Function.comp, hx]
    rw [hpg]
    by_cases hid : r.id = i
    · rw [if_pos hid]
      cases hfind : acc.find? (fun x => decide (x.id = i)) with
      | none =>
        obtain ⟨x0, hx0, hx0id⟩ := hmem
        have hsome : (acc.find? (fun x => decide (x.id = i))).isSome := by
          rw [List.find?_isSome]
          exact ⟨x0, hx0, by simp [hx0id, hid]⟩
        rw [hfind] at hsome
        simp at hsome
      | some x0 =>
        have hx0 : x0.id = i := by simpa using List.find?_some hfind
        simp only [Option.map_some']
        rw [if_pos (hx0.trans hid.symm)]
    · rw [if_neg hid]
      cases hfind : acc.find? (fun x => decide (x.id = i)) with
      | none => simp
      | some x0 =>
        have hx0 : x0.id = i := by simpa using List.find?_some hfind
        simp only [Option.map_some']
        rw [if_neg (by rw [hx0]; exact fun hc => hid hc.symm)]
  · rw [if_neg hmem, List.find?_append]
    by_cases hid : r.id = i
    · have hnone : acc.find? (fun x => decide (x.id = i)) = none := by
        cases hfind : acc.find? (fun x => decide (x.id = i)) with
        | none => rfl
        | some x0 =>
          have hx0 : x0.id = i := by simpa using List.find?_some hfind
          exact absurd ⟨x0, List.mem_of_find?_eq_some hfind, hx0.trans hid.symm⟩ hmem
      rw [hnone, if_pos hid]
      simp [List.find?_cons, hid]
    · rw [if_neg hid]
      have hsingle : ([r] : List SearchResult).find? (fun x => decide (x.id = i)) = none := by
        simp [List.find?_cons, hid]
      rw [hsingle, Option.or_none]

/-- The dict built by `{res.id: res for res in all_results}` maps each id to
the LAST result carrying it: looked up through `find?`, the dedup output
agrees with a reversed scan of the input. -/
theorem dedupAux_find? :
    ∀ (t acc : List SearchResult) (i : Int),
      (dedupAux acc t).find? (fun x => decide (x.id = i)) =
        (t.reverse.find? (fun x => decide (x.id = i))).or
          (acc.find? (fun x => decide (x.id = i))) := by
  intro t
  induction t with
  | nil => intro acc i; simp [dedupAux]
  | cons r t ih =>
    intro acc i
    show (dedupAux _ t).find? _ = _
    rw [ih, dedupStep_find?, List.reverse_cons, List.find?_append, Option.or_assoc]
    by_cases hid : r.id = i
    · rw [if_pos hid]
      simp [List.find?_cons, hid]
    · rw [if_neg hid]
      simp [List.find?_cons, hid]

theorem dedupStep_ids_nodup (acc : List SearchResult) (r : SearchResult)
    (h : (acc.map SearchResult.id).Nodup) :
    ((if ∃ x ∈ acc, x.id = r.id then acc.map (fun x => if x.id = r.id then r else x)
      else acc ++ [r]).map SearchResult.id).Nodup := by
  by_cases hmem : ∃ x ∈ acc, x.id = r.id
  · rw [if_pos hmem]
    have hsame : (acc.map (fun x => if x.id = r.id then r else x)).map SearchResult.id =
        acc.map SearchResult.id := by
      rw [List.map_map]
      apply List.map_congr_left
      intro x _
      by_cases hx : x.id = r.id <;> simp [Function.comp, hx]
    rw [hsame]
    exact h
  · rw [if_neg hmem, List.map_append]
    simp only [List.map_cons, List.map_nil]
    rw [List.nodup_append]
    refine ⟨h, List.nodup_singleton _, ?_⟩
    intro x hx
    simp only [List.mem_singleton]
    intro hc
    obtain ⟨y, hy, hyid⟩ := List.mem_map.mp hx
    exact hmem ⟨y, hy, hyid.trans hc⟩

theorem dedupAux_ids_nodup :
    ∀ (t acc : List SearchResult), (acc.map SearchResult.id).Nodup →
      ((dedupAux acc t).map SearchResult.id).Nodup := by
  intro t
  induction t with
  | nil => intro acc h; exact h
  | cons r t ih => intro acc h; exact ih _ (dedupStep_ids_nodup acc r h)

theorem srFind_self :
    ∀ (l : List SearchResult), (l.map SearchResult.id).Nodup →
      ∀ r ∈ l, l.find? (fun x => decide (x.id = r.id)) = some r := by
  intro l
  induction l with
  | nil => intro _ r hr; simp at hr
  | cons a t ih =>
    intro hnd r hr
    have hnd' : (a.id :: t.map SearchResult.id).Nodup := hnd
    have h1 : a.id ∉ t.map SearchResult.id := (List.nodup_cons.mp hnd').1
    have h2 : (t.map SearchResult.id).Nodup := (List.nodup_cons.mp hnd').2
    rcases List.mem_cons.mp hr with rfl | hrt
    · rw [List.find?_cons_of_pos _ (by simp)]
    · have hne : ¬(a.id = r.id) := by
        intro hc
        exact h1 (hc ▸ List.mem_map.mpr ⟨r, hrt, rfl⟩)
      rw [List.find?_cons_of_neg _ (by simpa using hne)]
      exact ih h2 r hrt

/-! ## Claim C3: cross-query merge, sort and truncation -/

/-- C3 counterexample: two results with the same id across planner queries —
the first with the higher score 5 and payload `"A"`, a later one with the
lower score 3 and payload `"B"`. The dict comprehension keeps the LAST
occurrence wholesale, so the merged entry has score 3 and payload `"B"`,
refuting "first occurrence wins for payload, retain the higher score". -/
theorem retriever_merge_first_occurrence_cex :
    retrieverMerge [⟨1, 5, "A", ⟨"A", none, none, [], none⟩, "s"⟩,
        ⟨1, 3, "B", ⟨"B", none, none, [], none⟩, "s"⟩] =
      [⟨1, 3, "B", ⟨"B", none, none, [], none⟩, "s"⟩] ∧ (3 : ℚ) < 5 := by
  constructor
  · simp [retrieverMerge, dedupById, dedupAux]
  · norm_num

/-- C3 (amended): the cross-query merge keeps, for every id, the LAST
occurrence of that id in the concatenated per-query results (payload and
score alike — a later lower-scoring occurrence replaces an earlier
higher-scoring one); the merged list is sorted by score descending,
truncated to at most 5, and contains no duplicate ids. -/
theorem retriever_merge_last_wins_sorted_topk (l : List SearchResult) :
    (retrieverMerge l).length ≤ 5 ∧
    ((retrieverMerge l).map SearchResult.id).Nodup ∧
    (retrieverMerge l).Pairwise (fun a b => b.score ≤ a.score) ∧
    ∀ r ∈ retrieverMerge l, l.reverse.find? (fun x => decide (x.id = r.id)) = some r := by
  have hdnd : ((dedupById l).map SearchResult.id).Nodup :=
    dedupAux_ids_nodup l [] (by simp)
  have hperm := List.mergeSort_perm (dedupById l) srLE
  have hsnd : (((dedupById l).mergeSort srLE).map SearchResult.id).Nodup :=
    ((hperm.map SearchResult.id).nodup_iff).mpr hdnd
  have hsub : List.Sublist (((dedupById l).mergeSort srLE).take 5)
      ((dedupById l).mergeSort srLE) :=
    List.take_sublist _ _
  refine ⟨List.length_take_le _ _, ?_, ?_, ?_⟩
  · exact List.Nodup.sublist (hsub.map SearchResult.id) hsnd
  · have hpair := @List.sorted_mergeSort SearchResult srLE
      (fun a b c hab hbc => by
        simp only [srLE, decide_eq_true_eq] at *
        exact le_trans hbc hab)
      (fun a b => by
        simp only [srLE]
        rcases le_total b.score a.score with h | h <;> simp [h])
      (dedupById l)
    exact (hpair.imp (fun h => by simpa [srLE] using h)).sublist hsub
  · intro r hr
    have hrs : r ∈ (dedupById l).mergeSort srLE := List.mem_of_mem_take hr
    have hrd : r ∈ dedupById l := List.mem_mergeSort.mp hrs
    have hself := srFind_self (dedupById l) hdnd r hrd
    have hchar := dedupAux_find? l [] r.id
    have hnil : (([] : List SearchResult).find? (fun x => decide (x.id = r.id))) = none := rfl
    rw [hnil, Option.or_none] at hchar
    show l.reverse.find? (fun x => decide (x.id = r.id)) = some r
    rw [← hchar]
    exact hself

end VetAgent
